import Mathlib

/-!
Shallow embedding of the HTTP forward-proxy source (single C++ translation
unit): the LRU response cache (`LRUCache::get` / `LRUCache::put`), the
worker's header-reception loop (`thread_fn`), the relay phase of
`handle_request`, and the outbound-request rewriting in `handle_request`.

Bytes are modelled as `Nat`, byte strings (`std::string` used as raw byte
buffers) as `List Nat`.  All ASCII literals from the source appear as
explicit byte lists, annotated with the text they spell.
-/

abbrev Byte := Nat
abbrev ByteStr := List Byte

/-! ### LRU cache (class LRUCache) -/

structure CacheEntry where
  url : ByteStr
  data : ByteStr
deriving DecidableEq

def entrySize (e : CacheEntry) : Nat := e.url.length + e.data.length

def sumSizes (l : List CacheEntry) : Nat := (l.map entrySize).sum

def keys (l : List CacheEntry) : List ByteStr := l.map CacheEntry.url

/-- Cache state.  `lru_list` holds entries most-recent first, as the source's
`std::list` does.  The source's `cache_map` (`unordered_map` from url to the
list node holding that url) is an index of `lru_list` and is modelled by
first-match search in `lru_list`; it carries no state of its own. -/
structure LRUCache where
  capacity_bytes : Nat
  current_size : Nat
  lru_list : List CacheEntry
deriving DecidableEq

def LRUCache.empty (cap : Nat) : LRUCache :=
  { capacity_bytes := cap, current_size := 0, lru_list := [] }

/-- `cache_map.find(url)` followed by unlinking the found node: returns the
first entry whose key is `url` together with the list with that node removed
(order of the others preserved), or `none` when `url` is absent. -/
def findRemove (url : ByteStr) : List CacheEntry → Option (CacheEntry × List CacheEntry)
  | [] => none
  | e :: rest =>
    if e.url = url then some (e, rest)
    else
      match findRemove url rest with
      | none => none
      | some (f, rest') => some (f, e :: rest')

/-- `LRUCache::get`: on a miss return `""` (the empty byte string is the
absence marker); on a hit splice the node to the front and return its data. -/
def LRUCache.get (c : LRUCache) (url : ByteStr) : ByteStr × LRUCache :=
  match findRemove url c.lru_list with
  | none => ([], c)
  | some (e, rest) => (e.data, { c with lru_list := e :: rest })

/-- The eviction `while` loop of `LRUCache::put`, acting on the REVERSED
recency list so that the source's `lru_list.back()` is the head here:
while `current_size + s > capacity` and the list is non-empty, pop the
least-recently-used entry and subtract its size. -/
def evictRev (cap s : Nat) : Nat → List CacheEntry → Nat × List CacheEntry
  | size, [] => (size, [])
  | size, e :: rest =>
    if cap < size + s then evictRev cap s (size - entrySize e) rest
    else (size, e :: rest)

/-- The duplicate-removal step of `LRUCache::put`: if `url` is already
present, remove its node and subtract its size from `current_size`. -/
def dedup (c : LRUCache) (url : ByteStr) : Nat × List CacheEntry :=
  match findRemove url c.lru_list with
  | none => (c.current_size, c.lru_list)
  | some (old, rest) => (c.current_size - entrySize old, rest)

/-- `LRUCache::put`: reject entries larger than the whole capacity, remove an
existing entry for the same key, evict from the tail while over budget, then
insert the new entry at the front and add its size. -/
def LRUCache.put (c : LRUCache) (url data : ByteStr) : LRUCache :=
  let s := url.length + data.length
  if c.capacity_bytes < s then c
  else
    let d := dedup c url
    let ev := evictRev c.capacity_bytes s d.1 d.2.reverse
    { c with current_size := ev.1 + s,
             lru_list := { url := url, data := data } :: ev.2.reverse }

/-- The cache's internal consistency: `current_size` agrees with the entries,
keys are pairwise distinct (the map indexes each key once), and the byte
budget is respected.  Holds in every state reachable from `LRUCache.empty`. -/
def CacheInv (c : LRUCache) : Prop :=
  c.current_size = sumSizes c.lru_list ∧
  (keys c.lru_list).Nodup ∧
  c.current_size ≤ c.capacity_bytes

instance (c : LRUCache) : Decidable (CacheInv c) := by
  unfold CacheInv; infer_instance

inductive CacheOp
  | get (url : ByteStr)
  | put (url data : ByteStr)

def applyOp (c : LRUCache) : CacheOp → LRUCache
  | .get u => (c.get u).2
  | .put u d => c.put u d

def runOps (cap : Nat) (ops : List CacheOp) : LRUCache :=
  ops.foldl applyOp (LRUCache.empty cap)

/-! ### Worker header reception (thread_fn) -/

def MAX_BYTES : Nat := 4096

def MAX_HEADER_SIZE : Nat := 64 * 1024

/-- The bytes of the header terminator `"\r\n\r\n"`. -/
def CRLF2 : ByteStr := [13, 10, 13, 10]

/-- `raw_req.find("\r\n\r\n") != string::npos`: the terminator occurs as a
contiguous substring. -/
def containsTerm (l : ByteStr) : Bool := decide (CRLF2 <:+: l)

inductive RecvOutcome
  | proceed (raw : ByteStr)
  | respond400
  | silentClose
deriving DecidableEq

/-- The header-accumulation loop of `thread_fn`.  `chunks` is the sequence of
byte blocks successive successful `recv` calls return (a `recv` result of 0 or
below, the peer closing, is the end of the list).  The loop condition
`total_bytes < MAX_HEADER_SIZE` is tested before each `recv`; after appending
a chunk the whole accumulation is searched for the terminator.  On loop exit,
`header_complete` decides between processing (`proceed`), a 400 reply when
some bytes arrived, and a silent close when none did. -/
def recvGo (raw : ByteStr) (total : Nat) : List ByteStr → RecvOutcome
  | [] => if 0 < total then .respond400 else .silentClose
  | ch :: rest =>
    if total < MAX_HEADER_SIZE then
      if containsTerm (raw ++ ch) then .proceed (raw ++ ch)
      else recvGo (raw ++ ch) (total + ch.length) rest
    else if 0 < total then .respond400 else .silentClose

def recvLoop (chunks : List ByteStr) : RecvOutcome := recvGo [] 0 chunks

/-- Concatenation of received chunks (what `raw_req` accumulates). -/
def flatChunks : List ByteStr → ByteStr
  | [] => []
  | c :: r => c ++ flatChunks r

/-- The worker's hit test `!cached_resp.empty()`. -/
def cacheHit (resp : ByteStr) : Bool := !resp.isEmpty

inductive WorkerAction
  | silentClose
  | respond400
  | hitSend (resp : ByteStr)
  | missFetch (key : ByteStr)
deriving DecidableEq

/-- The worker's dispatch after header reception: on `proceed raw` it queries
the cache with `raw` itself as the key; a non-empty result is served as a hit,
otherwise the request is parsed and relayed with `raw` as the cache key
(`handle_request(socket, request, raw_req)`). -/
def thread_fn_classify (c : LRUCache) (chunks : List ByteStr) : WorkerAction :=
  match recvLoop chunks with
  | .silentClose => .silentClose
  | .respond400 => .respond400
  | .proceed raw =>
    if cacheHit (c.get raw).1 then .hitSend (c.get raw).1
    else .missFetch raw

/-- Modelled from the spec sentence for claim C2 only (the code has no such
function): the shortest prefix of a byte sequence that ends with the
blank-line terminator, i.e. the bytes "up to and including" the terminator. -/
def headerUpToTerm : ByteStr → ByteStr
  | [] => []
  | b :: rest =>
    if CRLF2 <+: (b :: rest) then CRLF2
    else b :: headerUpToTerm rest

/-! ### Relay phase of handle_request -/

/-- How the upstream `recv` sequence ended: `eof` is a return of 0,
`rerr` a negative return (read error). -/
inductive StreamEnd
  | eof
  | rerr
deriving DecidableEq

/-- One successful upstream `recv` (a positive byte count) together with the
outcome of the `send_all` forwarding those bytes to the client. -/
inductive UpEvent
  | data (d : ByteStr) (sendOk : Bool)
deriving DecidableEq

/-- The relay loop of `handle_request`: each received block is forwarded to
the client and, when that send succeeds, appended to `temp_cache_data`; a
failed client send breaks out of the loop at once. -/
def relayLoop (temp : ByteStr) : List UpEvent → ByteStr
  | [] => temp
  | UpEvent.data d ok :: rest => if ok then relayLoop (temp ++ d) rest else temp

/-- Steps 4-5 of `handle_request`: run the relay loop over the upstream
events, then call `cache.put(url, temp_cache_data)`.  The `ending` of the
upstream stream (EOF versus read error) is part of the trace but the source
consults it nowhere: the `put` follows the loop unconditionally. -/
def handle_request_relay (c : LRUCache) (url : ByteStr) (events : List UpEvent)
    (ending : StreamEnd) : LRUCache :=
  c.put url (relayLoop [] events)

/-! ### Outbound request assembly (handle_request, step 1) -/

structure Header where
  key : ByteStr
  value : ByteStr
deriving DecidableEq

/-- The fields of `ParsedRequest` the rewriter consumes. -/
structure ParsedRequest where
  method : ByteStr
  path : ByteStr
  version : ByteStr
  host : ByteStr
  headers : List Header
deriving DecidableEq

/-- `::tolower` on an ASCII byte (C locale). -/
def toLowerByte (b : Byte) : Byte := if 65 ≤ b ∧ b ≤ 90 then b + 32 else b

/-- `std::transform(..., ::tolower)` over a byte string. -/
def lowerStr (s : ByteStr) : ByteStr := s.map toLowerByte

def SP : ByteStr := [32]
def CRLF : ByteStr := [13, 10]
def COLON_SP : ByteStr := [58, 32]

/-- "host" -/
def HOST_LOWER : ByteStr := [104, 111, 115, 116]
/-- "connection" -/
def CONNECTION_LOWER : ByteStr := [99, 111, 110, 110, 101, 99, 116, 105, 111, 110]
/-- "Host" -/
def HOST_BYTES : ByteStr := [72, 111, 115, 116]
/-- "Connection" -/
def CONNECTION_BYTES : ByteStr := [67, 111, 110, 110, 101, 99, 116, 105, 111, 110]
/-- "close" -/
def CLOSE_BYTES : ByteStr := [99, 108, 111, 115, 101]

/-- Step 1 of `handle_request`: the request line, then each original header
whose lowercased key is neither "host" nor "connection", then
`Host: <request->host>` and `Connection: close` and the blank line. -/
def handle_request_build (r : ParsedRequest) : ByteStr :=
  let line := r.method ++ SP ++ r.path ++ SP ++ r.version ++ CRLF
  let withHeaders := r.headers.foldl
    (fun acc h =>
      if lowerStr h.key = HOST_LOWER ∨ lowerStr h.key = CONNECTION_LOWER then acc
      else acc ++ h.key ++ COLON_SP ++ h.value ++ CRLF)
    line
  withHeaders ++ HOST_BYTES ++ COLON_SP ++ r.host ++ CRLF
    ++ CONNECTION_BYTES ++ COLON_SP ++ CLOSE_BYTES ++ CRLF ++ CRLF

/-- One serialized header line `key: value\r\n`. -/
def headerLine (h : Header) : ByteStr := h.key ++ COLON_SP ++ h.value ++ CRLF

/-- Case-insensitive equality of byte strings, as the spec words it. -/
def eqCaseInsensitive (a b : ByteStr) : Prop := lowerStr a = lowerStr b

instance (a b : ByteStr) : Decidable (eqCaseInsensitive a b) := by
  unfold eqCaseInsensitive; infer_instance

/-- Modelled from the spec's wording of the outbound wire format (for the
refinement claim C8): request line, then the original headers filtered by
case-insensitive comparison with "Host" and "Connection", then the `Host`
header, `Connection: close`, and the blank line. -/
def specOutbound (r : ParsedRequest) : ByteStr :=
  (r.method ++ SP ++ r.path ++ SP ++ r.version ++ CRLF)
  ++ flatChunks ((r.headers.filter (fun h =>
        decide (¬(eqCaseInsensitive h.key HOST_BYTES ∨
                  eqCaseInsensitive h.key CONNECTION_BYTES)))).map headerLine)
  ++ (HOST_BYTES ++ COLON_SP ++ r.host ++ CRLF)
  ++ (CONNECTION_BYTES ++ COLON_SP ++ CLOSE_BYTES ++ CRLF)
  ++ CRLF

/-! ### Cache lemmas -/

lemma sumSizes_nil : sumSizes [] = 0 := rfl

lemma sumSizes_cons (e : CacheEntry) (l : List CacheEntry) :
    sumSizes (e :: l) = entrySize e + sumSizes l := by
  simp [sumSizes]

lemma sumSizes_append (l₁ l₂ : List CacheEntry) :
    sumSizes (l₁ ++ l₂) = sumSizes l₁ + sumSizes l₂ := by
  simp [sumSizes]

lemma sumSizes_reverse (l : List CacheEntry) : sumSizes l.reverse = sumSizes l := by
  simp [sumSizes, List.sum_reverse]

lemma suffix_cons_cases {α : Type} {t : List α} {a : α} {l : List α}
    (h : t <:+ a :: l) : t = a :: l ∨ t <:+ l := by
  obtain ⟨u, hu⟩ := h
  cases u with
  | nil => left; simpa using hu
  | cons x xs =>
    right
    refine ⟨xs, ?_⟩
    have := hu
    simp only [List.cons_append] at this
    exact (List.cons.injEq _ _ _ _).mp this |>.2

lemma suffix_antisymm {α : Type} {t l : List α} (h₁ : t <:+ l) (h₂ : l <:+ t) : t = l := by
  obtain ⟨u, hu⟩ := h₁
  obtain ⟨w, hw⟩ := h₂
  have hlen : u.length + t.length = l.length := by
    have := congrArg List.length hu; simpa using this
  have hlen' : w.length + l.length = t.length := by
    have := congrArg List.length hw; simpa using this
  have hu0 : u = [] := List.length_eq_zero.mp (by omega)
  subst hu0
  simpa using hu

lemma findRemove_cons_self {e : CacheEntry} {u : ByteStr} (h : e.url = u)
    (rest : List CacheEntry) : findRemove u (e :: rest) = some (e, rest) := by
  simp [findRemove, h]

lemma findRemove_some (u : ByteStr) :
    ∀ (l : List CacheEntry) (e : CacheEntry) (rest : List CacheEntry),
      findRemove u l = some (e, rest) →
      ∃ pre post, l = pre ++ e :: post ∧ rest = pre ++ post ∧ e.url = u ∧
        (∀ x ∈ pre, x.url ≠ u) := by
  intro l
  induction l with
  | nil => intro e rest h; simp [findRemove] at h
  | cons a as ih =>
    intro e rest h
    by_cases ha : a.url = u
    · rw [findRemove_cons_self ha] at h
      have h' := Option.some.inj h
      have he : a = e := congrArg Prod.fst h'
      have hrest : as = rest := congrArg Prod.snd h'
      subst he; subst hrest
      exact ⟨[], as, by simp, by simp, ha, by simp⟩
    · simp only [findRemove, if_neg ha] at h
      rcases hfr : findRemove u as with _ | p
      · rw [hfr] at h; simp at h
      · rw [hfr] at h
        have h' := Option.some.inj h
        have he : p.1 = e := congrArg Prod.fst h'
        have hrest : a :: p.2 = rest := congrArg Prod.snd h'
        obtain ⟨pre, post, hl, hr, hu, hpre⟩ := ih p.1 p.2 (by rw [hfr])
        refine ⟨a :: pre, post, ?_, ?_, ?_, ?_⟩
        · rw [← he]; simp [hl]
        · rw [← hrest, hr]; simp
        · rw [← he]; exact hu
        · intro x hx
          rcases List.mem_cons.mp hx with h1 | h1
          · rw [h1]; exact ha
          · exact hpre x h1

lemma findRemove_none (u : ByteStr) :
    ∀ (l : List CacheEntry), findRemove u l = none → ∀ x ∈ l, x.url ≠ u := by
  intro l
  induction l with
  | nil => intro _h x hx; simp at hx
  | cons a as ih =>
    intro h x hx
    by_cases ha : a.url = u
    · rw [findRemove_cons_self ha] at h; simp at h
    · simp only [findRemove, if_neg ha] at h
      rcases hfr : findRemove u as with _ | p
      · rcases List.mem_cons.mp hx with h1 | h1
        · rw [h1]; exact ha
        · exact ih hfr x h1
      · rw [hfr] at h; simp at h

/-- Behaviour of the eviction loop on the reversed list: the size counter
tracks the remaining entries, only a suffix survives, on exit the byte budget
holds or the list is exhausted, and every strictly larger suffix was still
over budget (each eviction was forced by the loop condition). -/
lemma evictRev_spec (cap s : Nat) :
    ∀ (l : List CacheEntry) (size : Nat), size = sumSizes l →
      (evictRev cap s size l).1 = sumSizes (evictRev cap s size l).2 ∧
      (evictRev cap s size l).2 <:+ l ∧
      ((evictRev cap s size l).1 + s ≤ cap ∨ (evictRev cap s size l).2 = []) ∧
      (∀ t, t <:+ l → (evictRev cap s size l).2 <:+ t → t ≠ (evictRev cap s size l).2 →
        cap < sumSizes t + s) := by
  intro l
  induction l with
  | nil =>
    intro size hsize
    refine ⟨by simpa [evictRev] using hsize, by simp [evictRev], ?_, ?_⟩
    · right; simp [evictRev]
    · intro t ht _hsuf hne
      have ht' : t = [] := List.suffix_nil.mp ht
      exact absurd (ht'.trans (by simp [evictRev])) hne
  | cons e rest ih =>
    intro size hsize
    by_cases hc : cap < size + s
    · have hstep : size - entrySize e = sumSizes rest := by
        rw [hsize, sumSizes_cons]; omega
      have heq : evictRev cap s size (e :: rest) = evictRev cap s (size - entrySize e) rest := by
        simp [evictRev, hc]
      obtain ⟨ih1, ih2, ih3, ih4⟩ := ih (size - entrySize e) hstep
      rw [heq]
      refine ⟨ih1, ih2.trans (List.suffix_cons e rest), ih3, ?_⟩
      intro t ht hsuf hne
      rcases suffix_cons_cases ht with h1 | h1
      · rw [h1, sumSizes_cons]
        rw [hsize, sumSizes_cons] at hc
        omega
      · exact ih4 t h1 hsuf hne
    · have heq : evictRev cap s size (e :: rest) = (size, e :: rest) := by
        simp [evictRev, hc]
      rw [heq]
      refine ⟨hsize, List.suffix_refl _, Or.inl (by omega), ?_⟩
      intro t ht hsuf hne
      exact absurd (suffix_antisymm ht hsuf) hne

/-- Behaviour of the duplicate-removal step of `put`, given that the size
counter and the key index are consistent. -/
lemma dedup_spec (c : LRUCache) (u : ByteStr) (hsz : c.current_size = sumSizes c.lru_list)
    (hnd : (keys c.lru_list).Nodup) :
    (dedup c u).1 = sumSizes (dedup c u).2 ∧
    (keys (dedup c u).2).Nodup ∧
    (∀ x ∈ (dedup c u).2, x.url ≠ u) := by
  rcases hfr : findRemove u c.lru_list with _ | p
  · have hne := findRemove_none u c.lru_list hfr
    simp only [dedup, hfr]
    exact ⟨hsz, hnd, hne⟩
  · obtain ⟨pre, post, hl, hr, hu, _⟩ := findRemove_some u c.lru_list p.1 p.2 (by rw [hfr])
    have hsum : sumSizes c.lru_list = entrySize p.1 + sumSizes p.2 := by
      rw [hl, hr, sumSizes_append, sumSizes_cons, sumSizes_append]; omega
    have hkeys : List.Perm (keys c.lru_list) (p.1.url :: keys p.2) := by
      rw [hl, hr]
      simp only [keys, List.map_append, List.map_cons]
      exact List.perm_middle
    have hnd' : (p.1.url :: keys p.2).Nodup := hkeys.nodup hnd
    have hnotmem : p.1.url ∉ keys p.2 := (List.nodup_cons.mp hnd').1
    simp only [dedup, hfr]
    refine ⟨?_, (List.nodup_cons.mp hnd').2, ?_⟩
    · rw [hsz, hsum]; omega
    · intro x hx hxu
      apply hnotmem
      simp only [keys]
      rw [hu, ← hxu]
      exact List.mem_map_of_mem CacheEntry.url hx

/-- Characterization of a storing `put` (entry not oversized): the surviving
old entries `keep` are an initial segment of the deduplicated list, the new
entry sits in front of them, sizes are accounted exactly, the byte budget
holds, and every strictly longer initial segment would have been over
budget. -/
lemma put_spec (c : LRUCache) (k v : ByteStr)
    (hsz : c.current_size = sumSizes c.lru_list)
    (hnd : (keys c.lru_list).Nodup)
    (hcap : k.length + v.length ≤ c.capacity_bytes) :
    ∃ keep evicted,
      (dedup c k).2 = keep ++ evicted ∧
      (c.put k v).lru_list = ⟨k, v⟩ :: keep ∧
      (c.put k v).current_size = sumSizes keep + (k.length + v.length) ∧
      (c.put k v).capacity_bytes = c.capacity_bytes ∧
      sumSizes keep + (k.length + v.length) ≤ c.capacity_bytes ∧
      (∀ p, p <+: (dedup c k).2 → keep <+: p → p ≠ keep →
        c.capacity_bytes < sumSizes p + (k.length + v.length)) ∧
      (keys keep).Nodup ∧
      (∀ x ∈ keep, x.url ≠ k) := by
  have hif : ¬ (c.capacity_bytes < k.length + v.length) := not_lt.mpr hcap
  obtain ⟨hd1, hd2, hd3⟩ := dedup_spec c k hsz hnd
  have hrevsz : (dedup c k).1 = sumSizes (dedup c k).2.reverse := by
    rw [hd1, sumSizes_reverse]
  obtain ⟨he1, he2, he3, he4⟩ :=
    evictRev_spec c.capacity_bytes (k.length + v.length) (dedup c k).2.reverse
      (dedup c k).1 hrevsz
  have hput : c.put k v =
      { c with
        current_size :=
          (evictRev c.capacity_bytes (k.length + v.length) (dedup c k).1
            (dedup c k).2.reverse).1 + (k.length + v.length),
        lru_list := ⟨k, v⟩ ::
          (evictRev c.capacity_bytes (k.length + v.length) (dedup c k).1
            (dedup c k).2.reverse).2.reverse } := by
    simp [LRUCache.put, hif]
  obtain ⟨t, ht⟩ := he2
  have hdec : (dedup c k).2 =
      (evictRev c.capacity_bytes (k.length + v.length) (dedup c k).1
        (dedup c k).2.reverse).2.reverse ++ t.reverse := by
    have := congrArg List.reverse ht
    simpa using this.symm
  refine ⟨(evictRev c.capacity_bytes (k.length + v.length) (dedup c k).1
    (dedup c k).2.reverse).2.reverse, t.reverse, hdec, ?_, ?_, ?_, ?_, ?_, ?_, ?_⟩
  · rw [hput]
  · rw [hput, sumSizes_reverse, ← he1]
  · rw [hput]
  · rcases he3 with h3 | h3
    · rw [sumSizes_reverse, ← he1]; exact h3
    · rw [h3]; simpa [sumSizes] using hcap
  · intro p hp hkp hne
    have h1 : p.reverse <:+ (dedup c k).2.reverse := List.reverse_suffix.mpr hp
    have h2 : (evictRev c.capacity_bytes (k.length + v.length) (dedup c k).1
        (dedup c k).2.reverse).2 <:+ p.reverse := by
      have := List.reverse_suffix.mpr hkp
      simpa using this
    have h3 : p.reverse ≠ (evictRev c.capacity_bytes (k.length + v.length) (dedup c k).1
        (dedup c k).2.reverse).2 := by
      intro hh
      apply hne
      have := congrArg List.reverse hh
      simpa using this
    have := he4 p.reverse h1 h2 h3
    rwa [sumSizes_reverse] at this
  · have hd2' := hdec ▸ hd2
    simp only [keys, List.map_append] at hd2'
    simp only [keys]
    exact hd2'.sublist (List.sublist_append_left _ _)
  · intro x hx
    apply hd3
    rw [hdec]
    exact List.mem_append_left _ hx

lemma CacheInv_put (c : LRUCache) (k v : ByteStr) (h : CacheInv c) : CacheInv (c.put k v) := by
  obtain ⟨hsz, hnd, hle⟩ := h
  by_cases hcap : c.capacity_bytes < k.length + v.length
  · have heq : c.put k v = c := by simp [LRUCache.put, hcap]
    rw [heq]; exact ⟨hsz, hnd, hle⟩
  · have hcap' : k.length + v.length ≤ c.capacity_bytes := not_lt.mp hcap
    obtain ⟨keep, ev, _hdec, hlist, hsize, hcapeq, hbound, _hmax, hknd, hkne⟩ :=
      put_spec c k v hsz hnd hcap'
    refine ⟨?_, ?_, ?_⟩
    · rw [hsize, hlist, sumSizes_cons]
      simp only [entrySize]
      omega
    · rw [hlist]
      simp only [keys, List.map_cons]
      refine List.nodup_cons.mpr ⟨?_, ?_⟩
      · intro hmem
        obtain ⟨x, hx, hxu⟩ := List.mem_map.mp hmem
        exact hkne x hx hxu
      · simpa only [keys] using hknd
    · rw [hsize, hcapeq]; exact hbound

lemma CacheInv_get (c : LRUCache) (u : ByteStr) (h : CacheInv c) : CacheInv (c.get u).2 := by
  obtain ⟨hsz, hnd, hle⟩ := h
  rcases hfr : findRemove u c.lru_list with _ | ⟨e, rest⟩
  · simp only [LRUCache.get, hfr]
    exact ⟨hsz, hnd, hle⟩
  · obtain ⟨pre, post, hl, hr, _hu, _⟩ := findRemove_some u c.lru_list e rest (by rw [hfr])
    have hget : (c.get u).2 = { c with lru_list := e :: rest } := by
      simp [LRUCache.get, hfr]
    have hperm : List.Perm c.lru_list (e :: rest) := by
      rw [hl, hr]; exact List.perm_middle
    rw [hget]
    refine ⟨?_, ?_, hle⟩
    · rw [hsz]
      simp only [sumSizes]
      exact (hperm.map entrySize).sum_eq
    · simp only [keys]
      exact (hperm.map CacheEntry.url).nodup hnd

lemma CacheInv_foldl (ops : List CacheOp) :
    ∀ c : LRUCache, CacheInv c → CacheInv (ops.foldl applyOp c) := by
  induction ops with
  | nil => intro c h; exact h
  | cons op rest ih =>
    intro c h
    have hstep : CacheInv (applyOp c op) := by
      cases op with
      | get u => exact CacheInv_get c u h
      | put u d => exact CacheInv_put c u d h
    exact ih _ hstep

lemma CacheInv_runOps (cap : Nat) (ops : List CacheOp) : CacheInv (runOps cap ops) := by
  have hstart : CacheInv (LRUCache.empty cap) := by
    exact ⟨rfl, by simp [keys, LRUCache.empty], by simp [LRUCache.empty]⟩
  exact CacheInv_foldl ops (LRUCache.empty cap) hstart

lemma put_capacity (c : LRUCache) (k v : ByteStr) :
    (c.put k v).capacity_bytes = c.capacity_bytes := by
  by_cases h : c.capacity_bytes < k.length + v.length
  · simp [LRUCache.put, h]
  · simp [LRUCache.put, h]

lemma put_front (c : LRUCache) (k v : ByteStr) (h : k.length + v.length ≤ c.capacity_bytes) :
    ∃ tail, (c.put k v).lru_list = { url := k, data := v } :: tail := by
  have hif : ¬ (c.capacity_bytes < k.length + v.length) := not_lt.mpr h
  refine ⟨(evictRev c.capacity_bytes (k.length + v.length) (dedup c k).1
    (dedup c k).2.reverse).2.reverse, ?_⟩
  simp [LRUCache.put, hif]

lemma get_front (c : LRUCache) (k v : ByteStr) (tail : List CacheEntry)
    (h : c.lru_list = { url := k, data := v } :: tail) :
    c.get k = (v, { c with lru_list := { url := k, data := v } :: tail }) := by
  have hfr : findRemove k c.lru_list = some ({ url := k, data := v }, tail) := by
    rw [h]; exact findRemove_cons_self rfl tail
  simp [LRUCache.get, hfr]

/-- Claim C3: for every sequence of cache operations starting from the empty
cache, after every completed `get` or `put` the invariant
`current_size ≤ capacity_bytes` holds. -/
theorem claim_C3 (cap : Nat) (ops : List CacheOp) :
    (runOps cap ops).current_size ≤ (runOps cap ops).capacity_bytes :=
  (CacheInv_runOps cap ops).2.2

/-- Claim C4: a `put(k, v)` with `len(k)+len(v) > capacity_bytes` returns with
the cache byte-for-byte unchanged (recency list, the index it derives, and
`current_size`), while an entry of size exactly `capacity_bytes` is stored:
it ends up at the front of the recency list and `get(k)` returns `v`. -/
theorem claim_C4 (c : LRUCache) (k v : ByteStr) :
    (c.capacity_bytes < k.length + v.length → c.put k v = c) ∧
    (k.length + v.length = c.capacity_bytes →
      (c.put k v).lru_list.head? = some { url := k, data := v } ∧
      ((c.put k v).get k).1 = v) := by
  constructor
  · intro h; simp [LRUCache.put, h]
  · intro h
    obtain ⟨tail, htail⟩ := put_front c k v (le_of_eq h)
    refine ⟨by rw [htail]; rfl, ?_⟩
    rw [get_front (c.put k v) k v tail htail]

theorem claim_C4_witness :
    ((LRUCache.empty 3).put [1] [2, 3, 4] = LRUCache.empty 3) ∧
    (((LRUCache.empty 4).put [1] [2, 3, 4]).lru_list.head? =
        some { url := [1], data := [2, 3, 4] } ∧
      (((LRUCache.empty 4).put [1] [2, 3, 4]).get [1]).1 = [2, 3, 4]) :=
  ⟨(claim_C4 (LRUCache.empty 3) [1] [2, 3, 4]).1 (by decide),
   (claim_C4 (LRUCache.empty 4) [1] [2, 3, 4]).2 (by decide)⟩

/-- Claim C5: for a consistent cache and storable values `v1`, `v2`, after
`put(k, v1); put(k, v2)` a `get(k)` returns `v2`, the cache holds exactly one
entry for `k` (in front, old entry removed), and `current_size` accounts for
`len(k)+len(v2)` only once, beside the other entries. -/
theorem claim_C5 (c : LRUCache) (k v1 v2 : ByteStr) (hInv : CacheInv c)
    (h1 : k.length + v1.length ≤ c.capacity_bytes)
    (h2 : k.length + v2.length ≤ c.capacity_bytes) :
    (((c.put k v1).put k v2).get k).1 = v2 ∧
    ∃ others,
      ((c.put k v1).put k v2).lru_list = { url := k, data := v2 } :: others ∧
      (∀ x ∈ others, x.url ≠ k) ∧
      ((c.put k v1).put k v2).current_size = sumSizes others + (k.length + v2.length) := by
  obtain ⟨hsz1, hnd1, _⟩ := CacheInv_put c k v1 hInv
  have hcap1 : (c.put k v1).capacity_bytes = c.capacity_bytes := put_capacity c k v1
  obtain ⟨keep, ev, _hdec, hlist, hsize, _hcapeq, _hbound, _hmax, _hknd, hkne⟩ :=
    put_spec (c.put k v1) k v2 hsz1 hnd1 (by rw [hcap1]; exact h2)
  refine ⟨?_, keep, hlist, hkne, hsize⟩
  rw [get_front ((c.put k v1).put k v2) k v2 keep hlist]

theorem claim_C5_witness :
    CacheInv (LRUCache.empty 10) ∧
    ((((LRUCache.empty 10).put [1] [2]).put [1] [3, 4]).get [1]).1 = [3, 4] ∧
    (∃ others,
      (((LRUCache.empty 10).put [1] [2]).put [1] [3, 4]).lru_list =
        { url := [1], data := [3, 4] } :: others ∧
      (∀ x ∈ others, x.url ≠ [1]) ∧
      (((LRUCache.empty 10).put [1] [2]).put [1] [3, 4]).current_size =
        sumSizes others + ([1].length + [3, 4].length)) :=
  ⟨by decide,
   (claim_C5 (LRUCache.empty 10) [1] [2] [3, 4] (by decide) (by decide) (by decide)).1,
   (claim_C5 (LRUCache.empty 10) [1] [2] [3, 4] (by decide) (by decide) (by decide)).2⟩

/-- Claim C6: a storing `put(k, v)` evicts entries from the tail of the
(deduplicated) recency list exactly while `current_size + s > capacity_bytes`
and entries remain: the survivors `keep` are an initial segment (strictly more
recently used than every evicted entry, which form the complementary tail
segment), the final state fits the budget, and any strictly longer initial
segment would still have been over budget, so each eviction was forced. -/
theorem claim_C6 (c : LRUCache) (k v : ByteStr) (hInv : CacheInv c)
    (hcap : k.length + v.length ≤ c.capacity_bytes) :
    ∃ keep evicted,
      (dedup c k).2 = keep ++ evicted ∧
      (c.put k v).lru_list = { url := k, data := v } :: keep ∧
      sumSizes keep + (k.length + v.length) ≤ c.capacity_bytes ∧
      (∀ p, p <+: (dedup c k).2 → keep <+: p → p ≠ keep →
        c.capacity_bytes < sumSizes p + (k.length + v.length)) := by
  obtain ⟨hsz, hnd, _⟩ := hInv
  obtain ⟨keep, ev, hdec, hlist, _hsize, _hcapeq, hbound, hmax, _, _⟩ :=
    put_spec c k v hsz hnd hcap
  exact ⟨keep, ev, hdec, hlist, hbound, hmax⟩

def cacheC6 : LRUCache :=
  { capacity_bytes := 100, current_size := 60,
    lru_list := [{ url := [1], data := List.replicate 59 7 }] }

theorem claim_C6_witness :
    CacheInv cacheC6 ∧
    ∃ keep evicted,
      (dedup cacheC6 [2]).2 = keep ++ evicted ∧
      (cacheC6.put [2] (List.replicate 58 8)).lru_list =
        { url := [2], data := List.replicate 58 8 } :: keep ∧
      sumSizes keep + ([2].length + (List.replicate 58 8).length) ≤ cacheC6.capacity_bytes ∧
      (∀ p, p <+: (dedup cacheC6 [2]).2 → keep <+: p → p ≠ keep →
        cacheC6.capacity_bytes < sumSizes p + ([2].length + (List.replicate 58 8).length)) :=
  ⟨by decide, claim_C6 cacheC6 [2] (List.replicate 58 8) (by decide) (by decide)⟩

/-- Claim C7: after a successful `get(k)` (hit) the entry with key `k` is at
the front of the recency list, and a second `get(k)` returns the same value
and leaves the state (hence every cached value, and `k`'s front position)
unchanged; after a storing `put(k, v)` the new entry is at the front. -/
theorem claim_C7 (c : LRUCache) (k v : ByteStr) :
    (∀ e rest, findRemove k c.lru_list = some (e, rest) →
      (c.get k).1 = e.data ∧
      ((c.get k).2).lru_list.head? = some e ∧
      e.url = k ∧
      ((c.get k).2).get k = ((c.get k).1, (c.get k).2)) ∧
    (k.length + v.length ≤ c.capacity_bytes →
      (c.put k v).lru_list.head? = some { url := k, data := v }) := by
  constructor
  · intro e rest hfr
    obtain ⟨_, _, _, _, hu, _⟩ := findRemove_some k c.lru_list e rest hfr
    have hgl : c.get k = (e.data, { c with lru_list := e :: rest }) := by
      simp [LRUCache.get, hfr]
    refine ⟨by rw [hgl], by rw [hgl]; rfl, hu, ?_⟩
    rw [hgl]
    have hfr2 : findRemove k (e :: rest) = some (e, rest) := findRemove_cons_self hu rest
    simp [LRUCache.get, hfr2]
  · intro h
    obtain ⟨tail, htail⟩ := put_front c k v h
    rw [htail]; rfl

def cacheC7 : LRUCache :=
  { capacity_bytes := 10, current_size := 2, lru_list := [{ url := [1], data := [9] }] }

theorem claim_C7_witness :
    ((cacheC7.get [1]).1 = [9] ∧
     ((cacheC7.get [1]).2).lru_list.head? = some { url := [1], data := [9] } ∧
     ({ url := [1], data := [9] } : CacheEntry).url = [1] ∧
     ((cacheC7.get [1]).2).get [1] = ((cacheC7.get [1]).1, (cacheC7.get [1]).2)) ∧
    ((cacheC7.put [1] [5]).lru_list.head? = some { url := [1], data := [5] }) :=
  ⟨(claim_C7 cacheC7 [1] [5]).1 { url := [1], data := [9] } [] (by decide),
   (claim_C7 cacheC7 [1] [5]).2 (by decide)⟩

/-! ### Terminator-search lemmas -/

lemma pref_append_append (a b c : ByteStr) : a ++ b <+: a ++ (b ++ c) :=
  ⟨c, by simp⟩

lemma term_mono {l₁ l₂ : ByteStr} (h : l₁ <+: l₂) (ht : containsTerm l₁ = true) :
    containsTerm l₂ = true := by
  unfold containsTerm at ht ⊢
  exact decide_eq_true ((of_decide_eq_true ht).trans h.isInfix)

lemma term_mono_false {l₁ l₂ : ByteStr} (h : l₁ <+: l₂) (ht : containsTerm l₂ = false) :
    containsTerm l₁ = false := by
  cases hcb : containsTerm l₁ with
  | false => rfl
  | true =>
    have := term_mono h hcb
    rw [this] at ht
    simp at ht

lemma term_of_append_CRLF2 (l : ByteStr) : containsTerm (l ++ CRLF2) = true := by
  unfold containsTerm
  apply decide_eq_true
  exact ⟨l, [], by simp⟩

lemma term_no13 (l : ByteStr) (h : ∀ b ∈ l, b ≠ 13) : containsTerm l = false := by
  unfold containsTerm
  apply decide_eq_false
  intro hinf
  have h13 : (13 : Nat) ∈ l := hinf.sublist.subset (by decide)
  exact h 13 h13 rfl

/-- Whenever the reception loop proceeds, the raw bytes it hands on are the
concatenation of an initial run of the received chunks, and they contain the
terminator. -/
lemma recvGo_proceed (chunks : List ByteStr) :
    ∀ (raw0 : ByteStr) (total : Nat) (raw : ByteStr),
      recvGo raw0 total chunks = RecvOutcome.proceed raw →
      (∃ n, raw = raw0 ++ flatChunks (chunks.take n)) ∧ containsTerm raw = true := by
  induction chunks with
  | nil =>
    intro raw0 total raw h
    rw [recvGo] at h
    split at h <;> simp at h
  | cons ch rest ih =>
    intro raw0 total raw h
    rw [recvGo] at h
    by_cases h1 : total < MAX_HEADER_SIZE
    · rw [if_pos h1] at h
      by_cases h2 : containsTerm (raw0 ++ ch) = true
      · rw [if_pos h2] at h
        have hraw : raw0 ++ ch = raw := by
          simpa using h
        refine ⟨⟨1, ?_⟩, by rw [← hraw]; exact h2⟩
        rw [← hraw]
        simp [flatChunks]
      · rw [if_neg h2] at h
        obtain ⟨⟨n, hn⟩, hterm⟩ := ih (raw0 ++ ch) (total + ch.length) raw h
        refine ⟨⟨n + 1, ?_⟩, hterm⟩
        rw [hn]
        simp [flatChunks]
    · rw [if_neg h1] at h
      split at h <;> simp at h

/-! ### Claim C1 -/

/-- Claim C1 is false on the source: a relay trace that delivers bytes and
then aborts on an upstream READ ERROR still inserts the accumulated bytes,
because `cache.put(url, temp_cache_data)` follows the loop unconditionally.
Here the in-progress response [65, 66] is cached (a later `get` returns it)
and the cache differs from the untouched one, although the claim requires
the insertion to be skipped. -/
theorem claim_C1_counterexample :
    ((handle_request_relay (LRUCache.empty 100) [107] [UpEvent.data [65, 66] true]
        StreamEnd.rerr).get [107]).1 = [65, 66] ∧
    handle_request_relay (LRUCache.empty 100) [107] [UpEvent.data [65, 66] true]
        StreamEnd.rerr ≠ LRUCache.empty 100 := by
  decide

/-- Claim C1 (amended): `handle_request` inserts the accumulated response
bytes under the request key after the relay loop ends, WHATEVER ended it:
upstream EOF, upstream read error, or a client send failure; the result never
depends on the stream ending, and whenever the entry fits the capacity the
(possibly partial) response is stored at the front of the recency list. -/
theorem claim_C1_amended (c : LRUCache) (url : ByteStr) (events : List UpEvent)
    (ending : StreamEnd)
    (h : url.length + (relayLoop [] events).length ≤ c.capacity_bytes) :
    handle_request_relay c url events ending = c.put url (relayLoop [] events) ∧
    handle_request_relay c url events StreamEnd.rerr =
      handle_request_relay c url events StreamEnd.eof ∧
    (handle_request_relay c url events ending).lru_list.head? =
      some { url := url, data := relayLoop [] events } := by
  refine ⟨rfl, rfl, ?_⟩
  obtain ⟨tail, htail⟩ := put_front c url (relayLoop [] events) h
  show (c.put url (relayLoop [] events)).lru_list.head? = _
  rw [htail]; rfl

theorem claim_C1_amended_witness :
    ([107] : ByteStr).length + (relayLoop [] [UpEvent.data [65, 66] true]).length ≤
      (LRUCache.empty 100).capacity_bytes ∧
    (handle_request_relay (LRUCache.empty 100) [107] [UpEvent.data [65, 66] true]
        StreamEnd.eof).lru_list.head? =
      some { url := [107], data := relayLoop [] [UpEvent.data [65, 66] true] } :=
  ⟨by decide,
   (claim_C1_amended (LRUCache.empty 100) [107] [UpEvent.data [65, 66] true]
      StreamEnd.eof (by decide)).2.2⟩

/-! ### Claim C2 -/

/-- A single received chunk spelling "GET / HTTP/1.1\r\n\r\nX": one body byte
(88, the letter X) arrives in the same chunk as the header terminator. -/
def bodyChunk : ByteStr :=
  [71, 69, 84, 32, 47, 32, 72, 84, 84, 80, 47, 49, 46, 49, 13, 10, 13, 10, 88]

/-- Claim C2 is false on the source: when bytes beyond `\r\n\r\n` arrive in
the same chunk as the terminator they stay in `raw_req`, and the worker uses
that whole accumulation as the cache key (here `missFetch bodyChunk`), not
the prefix ending at the terminator: the key differs from the
header-terminated prefix. -/
theorem claim_C2_counterexample :
    recvLoop [bodyChunk] = RecvOutcome.proceed bodyChunk ∧
    thread_fn_classify (LRUCache.empty 100) [bodyChunk] =
      WorkerAction.missFetch bodyChunk ∧
    bodyChunk ≠ headerUpToTerm bodyChunk := by
  decide

/-- Claim C2 (amended): the cache key used by both the worker's lookup and
the relay's insertion is the full accumulated byte sequence `raw_req` at the
moment the terminator is first seen: a concatenation of an initial run of the
received chunks, containing `\r\n\r\n` but possibly extending past it (body
bytes that arrived in those same chunks are part of the key; only bytes of
never-received chunks are excluded). -/
theorem claim_C2_amended (c : LRUCache) (chunks : List ByteStr) (raw : ByteStr)
    (h : recvLoop chunks = RecvOutcome.proceed raw) :
    (∃ n, raw = flatChunks (chunks.take n)) ∧
    containsTerm raw = true ∧
    thread_fn_classify c chunks =
      (if cacheHit (c.get raw).1 then WorkerAction.hitSend (c.get raw).1
       else WorkerAction.missFetch raw) ∧
    (∀ events ending, handle_request_relay c raw events ending =
      c.put raw (relayLoop [] events)) := by
  obtain ⟨⟨n, hn⟩, hterm⟩ := recvGo_proceed chunks [] 0 raw h
  refine ⟨⟨n, by simpa using hn⟩, hterm, ?_, fun _ _ => rfl⟩
  simp [thread_fn_classify, h]

theorem claim_C2_amended_witness :
    recvLoop [CRLF2] = RecvOutcome.proceed CRLF2 ∧
    (∃ n, CRLF2 = flatChunks ([CRLF2].take n)) ∧
    containsTerm CRLF2 = true ∧
    thread_fn_classify (LRUCache.empty 100) [CRLF2] =
      (if cacheHit ((LRUCache.empty 100).get CRLF2).1
       then WorkerAction.hitSend ((LRUCache.empty 100).get CRLF2).1
       else WorkerAction.missFetch CRLF2) ∧
    (∀ events ending, handle_request_relay (LRUCache.empty 100) CRLF2 events ending =
      (LRUCache.empty 100).put CRLF2 (relayLoop [] events)) :=
  ⟨by decide, claim_C2_amended (LRUCache.empty 100) [CRLF2] CRLF2 (by decide)⟩

/-! ### Claim C8 -/

lemma eqCI_host (k : ByteStr) : eqCaseInsensitive k HOST_BYTES ↔ lowerStr k = HOST_LOWER := by
  unfold eqCaseInsensitive
  rw [show lowerStr HOST_BYTES = HOST_LOWER from by decide]

lemma eqCI_conn (k : ByteStr) :
    eqCaseInsensitive k CONNECTION_BYTES ↔ lowerStr k = CONNECTION_LOWER := by
  unfold eqCaseInsensitive
  rw [show lowerStr CONNECTION_BYTES = CONNECTION_LOWER from by decide]

/-- The header foldl of `handle_request` appends exactly the serialized
headers that survive the case-insensitive Host/Connection filter. -/
lemma build_fold (hs : List Header) : ∀ acc : ByteStr,
    hs.foldl (fun acc h =>
      if lowerStr h.key = HOST_LOWER ∨ lowerStr h.key = CONNECTION_LOWER then acc
      else acc ++ h.key ++ COLON_SP ++ h.value ++ CRLF) acc
    = acc ++ flatChunks ((hs.filter (fun h =>
        decide (¬(eqCaseInsensitive h.key HOST_BYTES ∨
                  eqCaseInsensitive h.key CONNECTION_BYTES)))).map headerLine) := by
  induction hs with
  | nil => intro acc; simp [flatChunks]
  | cons h t ih =>
    intro acc
    by_cases hcond : lowerStr h.key = HOST_LOWER ∨ lowerStr h.key = CONNECTION_LOWER
    · have hAB : eqCaseInsensitive h.key HOST_BYTES ∨
          eqCaseInsensitive h.key CONNECTION_BYTES := by
        rcases hcond with h1 | h1
        · exact Or.inl ((eqCI_host h.key).mpr h1)
        · exact Or.inr ((eqCI_conn h.key).mpr h1)
      have hfilter : decide (¬(eqCaseInsensitive h.key HOST_BYTES ∨
          eqCaseInsensitive h.key CONNECTION_BYTES)) = false :=
        decide_eq_false (not_not_intro hAB)
      simp only [List.foldl_cons, if_pos hcond, List.filter_cons, hfilter]
      simpa using ih acc
    · have hAB : ¬(eqCaseInsensitive h.key HOST_BYTES ∨
          eqCaseInsensitive h.key CONNECTION_BYTES) := by
        intro hor
        apply hcond
        rcases hor with h1 | h1
        · exact Or.inl ((eqCI_host h.key).mp h1)
        · exact Or.inr ((eqCI_conn h.key).mp h1)
      have hfilter : decide (¬(eqCaseInsensitive h.key HOST_BYTES ∨
          eqCaseInsensitive h.key CONNECTION_BYTES)) = true := decide_eq_true hAB
      simp only [List.foldl_cons, if_neg hcond, List.filter_cons, hfilter]
      rw [ih (acc ++ h.key ++ COLON_SP ++ h.value ++ CRLF)]
      simp [flatChunks, headerLine, List.append_assoc]

/-- Claim C8: for every parsed request, the outbound request assembled by the
relay equals the request line, then the client's original headers in order
minus every header whose key case-insensitively equals Host or Connection,
then `Host: <parsed-host>\r\n`, `Connection: close\r\n`, and the blank
line. -/
theorem claim_C8 (r : ParsedRequest) : handle_request_build r = specOutbound r := by
  simp only [handle_request_build, specOutbound, build_fold]
  simp [List.append_assoc]

/-! ### Claim C9 -/

/-- If the whole accumulation will contain the terminator and every proper
accumulation stage neither contains it nor reaches the ceiling, the loop
consumes all chunks and proceeds with the full accumulation. -/
lemma recvGo_all_term (chunks : List ByteStr) :
    ∀ (raw : ByteStr) (total : Nat), total = raw.length →
      containsTerm raw = false → raw.length < MAX_HEADER_SIZE →
      containsTerm (raw ++ flatChunks chunks) = true →
      (∀ n, n < chunks.length →
        containsTerm (raw ++ flatChunks (chunks.take n)) = false ∧
        (raw ++ flatChunks (chunks.take n)).length < MAX_HEADER_SIZE) →
      recvGo raw total chunks = RecvOutcome.proceed (raw ++ flatChunks chunks) := by
  induction chunks with
  | nil =>
    intro raw total _ hterm _ hfull _
    rw [flatChunks, List.append_nil] at hfull
    rw [hterm] at hfull
    simp at hfull
  | cons ch rest ih =>
    intro raw total htot hterm hlen hfull hpref
    rw [recvGo, if_pos (by omega)]
    by_cases h2 : containsTerm (raw ++ ch) = true
    · rw [if_pos h2]
      cases rest with
      | nil => rw [flatChunks, flatChunks, List.append_nil]
      | cons c2 r2 =>
        have h1 := (hpref 1 (by simp)).1
        simp only [List.take_succ_cons, List.take_zero, flatChunks, List.append_nil] at h1
        rw [h2] at h1
        simp at h1
    · rw [if_neg h2]
      have h2' : containsTerm (raw ++ ch) = false := by
        cases hcb : containsTerm (raw ++ ch) with
        | false => rfl
        | true => exact absurd hcb h2
      cases rest with
      | nil =>
        rw [flatChunks, flatChunks, List.append_nil] at hfull
        rw [h2'] at hfull
        simp at hfull
      | cons c2 r2 =>
        have h1 := (hpref 1 (by simp)).2
        simp only [List.take_succ_cons, List.take_zero, flatChunks, List.append_nil] at h1
        have hres := ih (raw ++ ch) (total + ch.length)
          (by rw [htot]; simp) h2' (by simpa using h1)
          (by simpa [flatChunks, List.append_assoc] using hfull)
          (by
            intro n hn
            have := hpref (n + 1) (by simpa using hn)
            simpa [flatChunks, List.append_assoc] using this)
        rw [hres]
        simp [flatChunks, List.append_assoc]

/-- If some initial run of the chunks already reaches the ceiling without
containing the terminator, the loop answers 400. -/
lemma recvGo_overflow (chunks : List ByteStr) :
    ∀ (j : Nat) (raw : ByteStr) (total : Nat), total = raw.length →
      containsTerm (raw ++ flatChunks (chunks.take j)) = false →
      MAX_HEADER_SIZE ≤ (raw ++ flatChunks (chunks.take j)).length →
      recvGo raw total chunks = RecvOutcome.respond400 := by
  induction chunks with
  | nil =>
    intro j raw total htot _hterm hlen
    simp only [List.take_nil, flatChunks, List.append_nil] at hlen
    rw [recvGo, if_pos (by simp [MAX_HEADER_SIZE] at hlen; omega)]
  | cons ch rest ih =>
    intro j raw total htot hterm hlen
    by_cases hcmp : total < MAX_HEADER_SIZE
    · cases j with
      | zero =>
        simp only [List.take_zero, flatChunks, List.append_nil] at hterm hlen
        rw [htot] at hcmp
        omega
      | succ n =>
        simp only [List.take_succ_cons, flatChunks, ← List.append_assoc] at hterm hlen
        rw [recvGo, if_pos hcmp]
        have h2' : containsTerm (raw ++ ch) = false :=
          term_mono_false (by exact ⟨flatChunks (rest.take n), rfl⟩) hterm
        rw [if_neg (by simp [h2'])]
        exact ih n (raw ++ ch) (total + ch.length) (by rw [htot]; simp) hterm hlen
    · rw [recvGo, if_neg hcmp,
        if_pos (by simp [MAX_HEADER_SIZE] at hcmp; omega)]

/-- If the full accumulation never contains the terminator and at least one
byte arrives, the loop answers 400 (peer close before the terminator, or
ceiling reached). -/
lemma recvGo_noterm (chunks : List ByteStr) :
    ∀ (raw : ByteStr) (total : Nat), total = raw.length →
      containsTerm (raw ++ flatChunks chunks) = false →
      raw ++ flatChunks chunks ≠ [] →
      recvGo raw total chunks = RecvOutcome.respond400 := by
  induction chunks with
  | nil =>
    intro raw total htot _hterm hne
    rw [flatChunks, List.append_nil] at hne
    have : 0 < raw.length := List.length_pos.mpr hne
    rw [recvGo, if_pos (by omega)]
  | cons ch rest ih =>
    intro raw total htot hterm hne
    by_cases hcmp : total < MAX_HEADER_SIZE
    · simp only [flatChunks, ← List.append_assoc] at hterm hne
      rw [recvGo, if_pos hcmp]
      have h2' : containsTerm (raw ++ ch) = false :=
        term_mono_false (by exact ⟨flatChunks rest, rfl⟩) hterm
      rw [if_neg (by simp [h2'])]
      exact ih (raw ++ ch) (total + ch.length) (by rw [htot]; simp) hterm hne
    · rw [recvGo, if_neg hcmp,
        if_pos (by simp [MAX_HEADER_SIZE] at hcmp; omega)]

/-- A peer that closes having sent no bytes at all produces the silent
close. -/
lemma recvGo_empty (chunks : List ByteStr) :
    ∀ (raw : ByteStr) (total : Nat), raw = [] → total = 0 → flatChunks chunks = [] →
      recvGo raw total chunks = RecvOutcome.silentClose := by
  induction chunks with
  | nil =>
    intro raw total _ htot _
    rw [recvGo, if_neg (by omega)]
  | cons ch rest ih =>
    intro raw total hraw htot hflat
    subst hraw; subst htot
    rw [flatChunks] at hflat
    have hch : ch = [] := by
      rcases List.append_eq_nil.mp hflat with ⟨h1, _⟩
      exact h1
    have hrest : flatChunks rest = [] := by
      rcases List.append_eq_nil.mp hflat with ⟨_, h2⟩
      exact h2
    subst hch
    rw [recvGo, if_pos (by simp [MAX_HEADER_SIZE])]
    rw [if_neg (by simp [List.append_nil]; decide)]
    simpa using ih [] 0 rfl rfl hrest

/-- Claim C9: the worker's header-reception loop (a) proceeds to lookup with
the accumulation as soon as it contains `\r\n\r\n` (in particular an
accumulation of exactly 65536 bytes whose terminator completes in the last
chunk is processed normally), (b) answers 400 once the accepted bytes reach
`MAX_HEADER_SIZE = 65536` without the terminator, (c) answers 400 when the
peer closes after more than zero bytes without the terminator, and (d) closes
silently when the peer closes having sent zero bytes. -/
theorem claim_C9 :
    (∀ chunks : List ByteStr, containsTerm (flatChunks chunks) = true →
      (∀ n, n < chunks.length →
        containsTerm (flatChunks (chunks.take n)) = false ∧
        (flatChunks (chunks.take n)).length < MAX_HEADER_SIZE) →
      recvLoop chunks = RecvOutcome.proceed (flatChunks chunks)) ∧
    (∀ (chunks : List ByteStr) (j : Nat),
      containsTerm (flatChunks (chunks.take j)) = false →
      MAX_HEADER_SIZE ≤ (flatChunks (chunks.take j)).length →
      recvLoop chunks = RecvOutcome.respond400) ∧
    (∀ chunks : List ByteStr, containsTerm (flatChunks chunks) = false →
      flatChunks chunks ≠ [] → recvLoop chunks = RecvOutcome.respond400) ∧
    (∀ chunks : List ByteStr, flatChunks chunks = [] →
      recvLoop chunks = RecvOutcome.silentClose) := by
  refine ⟨?_, ?_, ?_, ?_⟩
  · intro chunks h1 h2
    have hres := recvGo_all_term chunks [] 0 rfl (by decide) (by decide)
      (by simpa using h1)
      (by intro n hn; simpa using h2 n hn)
    simpa [recvLoop] using hres
  · intro chunks j h1 h2
    have hres := recvGo_overflow chunks j [] 0 rfl (by simpa using h1) (by simpa using h2)
    simpa [recvLoop] using hres
  · intro chunks h1 h2
    have hres := recvGo_noterm chunks [] 0 rfl (by simpa using h1) (by simpa using h2)
    simpa [recvLoop] using hres
  · intro chunks h1
    have hres := recvGo_empty chunks [] 0 rfl rfl h1
    simpa [recvLoop] using hres

/-- An accumulation of exactly 65536 bytes ending in the terminator,
delivered as a single chunk. -/
def chunk64K : ByteStr := List.replicate 65532 65 ++ CRLF2

/-- 65537 bytes (all the letter A) with no terminator anywhere. -/
def chunkBig : ByteStr := List.replicate 65537 65

theorem claim_C9_witness :
    recvLoop [chunk64K] = RecvOutcome.proceed (flatChunks [chunk64K]) ∧
    recvLoop [chunkBig] = RecvOutcome.respond400 ∧
    recvLoop [[71]] = RecvOutcome.respond400 ∧
    recvLoop [] = RecvOutcome.silentClose := by
  obtain ⟨hA, hB, hC, hD⟩ := claim_C9
  refine ⟨hA [chunk64K] ?_ ?_, hB [chunkBig] 1 ?_ ?_, hC [[71]] (by decide) (by decide),
    hD [] rfl⟩
  · show containsTerm (chunk64K ++ flatChunks []) = true
    rw [flatChunks, List.append_nil, chunk64K]
    exact term_of_append_CRLF2 _
  · intro n hn
    have hn0 : n = 0 := by simpa using hn
    subst hn0
    exact ⟨by decide, by decide⟩
  · show containsTerm (flatChunks [chunkBig]) = false
    rw [flatChunks, flatChunks, List.append_nil]
    apply term_no13
    intro b hb
    have hb' : b = 65 := List.eq_of_mem_replicate (by simpa only [chunkBig] using hb)
    rw [hb']
    decide
  · show MAX_HEADER_SIZE ≤ (flatChunks [chunkBig]).length
    rw [flatChunks, flatChunks, List.append_nil]
    simp only [chunkBig, List.length_replicate]
    decide

/-! ### Claim C10 -/

/-- Claim C10: `get` uses the empty byte string as its absence marker, so a
stored entry with empty value is indistinguishable from a miss at the public
interface: `get` returns `[]` both for the stored pair and for an absent key,
the worker's hit test `!cached_resp.empty()` rejects it (so the worker
re-fetches upstream), yet the relay does insert empty responses (upstream EOF
before any data) under their request key. -/
theorem claim_C10 (c c' : LRUCache) (k : ByteStr) (rest : List CacheEntry)
    (hstored : findRemove k c.lru_list = some ({ url := k, data := [] }, rest))
    (hmiss : findRemove k c'.lru_list = none)
    (hfit : k.length ≤ c.capacity_bytes) :
    (c.get k).1 = [] ∧
    (c'.get k).1 = [] ∧
    cacheHit (c.get k).1 = false ∧
    (∀ ending, handle_request_relay c k [] ending = c.put k []) ∧
    (c.put k []).lru_list.head? = some { url := k, data := [] } := by
  have hget : (c.get k).1 = [] := by simp [LRUCache.get, hstored]
  refine ⟨hget, by simp [LRUCache.get, hmiss], by rw [hget]; rfl, fun _ => rfl, ?_⟩
  obtain ⟨tail, htail⟩ := put_front c k [] (by simpa using hfit)
  rw [htail]; rfl

def cacheC10 : LRUCache :=
  { capacity_bytes := 10, current_size := 1, lru_list := [{ url := [1], data := [] }] }

theorem claim_C10_witness :
    (cacheC10.get [1]).1 = [] ∧
    ((LRUCache.empty 10).get [1]).1 = [] ∧
    cacheHit (cacheC10.get [1]).1 = false ∧
    (∀ ending, handle_request_relay cacheC10 [1] [] ending = cacheC10.put [1] []) ∧
    (cacheC10.put [1] []).lru_list.head? = some { url := [1], data := [] } :=
  claim_C10 cacheC10 (LRUCache.empty 10) [1] [] (by decide) (by decide) (by decide)
